import Mathlib

/-!
Verification of the metric/loss library of the uTraining repository
(src/scr/tasks/metrics.py) against its natural-language specification.

Tensors are modelled shallowly: a 1-D tensor is a list of rationals (or
reals where the source applies transcendental functions), a 2-D tensor a
list of rows, a 3-D tensor a list of 2-D tensors.  Exact rational
arithmetic stands in for floating point; the float literal 1e-7 is
modelled as the rational 1/10000000.  Where torch produces NaN from a
0/0 division of nonnegative counts and the source immediately replaces
NaN by 0, the model divides with an explicit zero-denominator guard,
which yields the identical post-replacement value.
-/

/-- Mean of a list of rationals: sum divided by length, as in torch mean
reduction.  On the empty list this is 0/0 = 0 in rational arithmetic. -/
def meanQ (l : List ℚ) : ℚ := l.sum / (l.length : ℚ)

/-- Thresholded prediction, embedding the expression
((logits >= 0).float()) applied elementwise: 1 when the logit is
nonnegative, otherwise 0 (metrics.py threshold convention). -/
def predPos (x : ℚ) : ℚ := if 0 ≤ x then 1 else 0

/-- Elementwise binary operation on 2-D tensors, embedding broadcast-free
elementwise torch arithmetic on same-shape operands. -/
def map2M (f : ℚ → ℚ → ℚ) (a b : List (List ℚ)) : List (List ℚ) :=
  List.zipWith (List.zipWith f) a b

/-- Sum of a 2-D tensor along dim 0 (torch.sum(m, dim=0)): the vector of
per-column sums, folded as repeated vector addition over the rows.  The
width is read off the first row; every caller supplies equal-width rows. -/
def sumDim0 (m : List (List ℚ)) : List ℚ :=
  m.foldr (fun row acc => List.zipWith (· + ·) row acc) (List.replicate (m.headD []).length 0)

/-- The float literal 1e-7 used by recall_multilabel and
precision_multilabel (metrics.py lines 202, 209). -/
def epsilon : ℚ := 1 / 10000000

/-- Embedding of recall_multilabel (metrics.py lines 201-206) for 2-D
logits whose last dimension is not 1, so that squeeze(-1) is the
identity.  Note the source computes tp and fp (false positives) and
returns sum(tp) / (sum(tp) + sum(fp) + epsilon). -/
def recall_multilabel (logits y : List (List ℚ)) : ℚ :=
  let y_pred := logits.map (fun r => r.map predPos)
  let tp := sumDim0 (map2M (fun p t => p * t) y_pred y)
  let fp := sumDim0 (map2M (fun p t => p * (1 - t)) y_pred y)
  tp.sum / (tp.sum + fp.sum + epsilon)

/-- Embedding of precision_multilabel (metrics.py lines 208-213) for 2-D
logits whose last dimension is not 1.  Note the source computes tp and fn
(false negatives) and returns sum(tp) / (sum(tp) + sum(fn) + epsilon). -/
def precision_multilabel (logits y : List (List ℚ)) : ℚ :=
  let y_pred := logits.map (fun r => r.map predPos)
  let tp := sumDim0 (map2M (fun p t => p * t) y_pred y)
  let fn := sumDim0 (map2M (fun p t => (1 - p) * t) y_pred y)
  tp.sum / (tp.sum + fn.sum + epsilon)

/-- Division with the zero-denominator case mapped to 0.  This embeds the
two-step torch idiom ratio = num / den followed by
ratio[torch.isnan(ratio)] = 0.0, for the nonnegative confusion counts
produced by specificity_multilabel: there den = 0 forces num = 0, the
division is 0/0 = NaN, and the NaN entry is replaced by 0. -/
def nanToZero (num den : ℚ) : ℚ := if den = 0 then 0 else num / den

/-- Embedding of specificity_multilabel (metrics.py lines 193-199) for
2-D logits whose last dimension is not 1: per-label true-negative and
false-positive counts summed over dim 0, the per-label ratio
tn / (tn + fp) with NaN entries zeroed, then the mean over labels. -/
def specificity_multilabel (logits y : List (List ℚ)) : ℚ :=
  let y_pred := logits.map (fun r => r.map predPos)
  let tn := sumDim0 (map2M (fun p t => (1 - p) * (1 - t)) y_pred y)
  let fp := sumDim0 (map2M (fun p t => p * (1 - t)) y_pred y)
  meanQ (List.zipWith (fun a b => nanToZero a (a + b)) tn fp)

/-- C1: the spec claims recall_multilabel returns
sum(TP) / (sum(TP) + sum(FN) + eps) and precision_multilabel returns
sum(TP) / (sum(TP) + sum(FP) + eps).  The code has the two denominators
swapped: on logits [[1,-1],[-1,1]] and targets [[1,0],[1,1]] the
confusion counts are TP = 2, FP = 0, FN = 1, yet recall_multilabel
returns 2 / (2 + eps) = TP / (TP + FP + eps), not the claimed
2 / (3 + eps) = TP / (TP + FN + eps), and precision_multilabel returns
2 / (3 + eps), not the claimed 2 / (2 + eps). -/
theorem C1_recall_precision_swapped :
    recall_multilabel [[1, -1], [-1, 1]] [[1, 0], [1, 1]] = 2 / (2 + epsilon) ∧
    precision_multilabel [[1, -1], [-1, 1]] [[1, 0], [1, 1]] = 2 / (3 + epsilon) ∧
    recall_multilabel [[1, -1], [-1, 1]] [[1, 0], [1, 1]] ≠ 2 / (3 + epsilon) ∧
    precision_multilabel [[1, -1], [-1, 1]] [[1, 0], [1, 1]] ≠ 2 / (2 + epsilon) := by
  refine ⟨?_, ?_, ?_, ?_⟩ <;>
    · simp [recall_multilabel, precision_multilabel, sumDim0, map2M, predPos, epsilon]
      norm_num

/-- Column j of a 2-D tensor, with out-of-range positions read as 0. -/
def colD (m : List (List ℚ)) (j : Nat) : List ℚ := m.map (fun r => r.getD j 0)

lemma getD_zipWith (f : ℚ → ℚ → ℚ) :
    ∀ (a b : List ℚ) (j : Nat), j < a.length → j < b.length →
      (List.zipWith f a b).getD j 0 = f (a.getD j 0) (b.getD j 0) := by
  intro a
  induction a with
  | nil => intro b j h; simp at h
  | cons x xs ih =>
    intro b j h1 h2
    cases b with
    | nil => simp at h2
    | cons y ys =>
      cases j with
      | zero => simp
      | succ n =>
        simp only [List.zipWith_cons_cons, List.getD_cons_succ]
        exact ih ys n (Nat.lt_of_succ_lt_succ h1) (Nat.lt_of_succ_lt_succ h2)

lemma colD_map2M (f : ℚ → ℚ → ℚ) :
    ∀ (a b : List (List ℚ)) (c j : Nat), j < c →
      (∀ r ∈ a, r.length = c) → (∀ r ∈ b, r.length = c) →
      colD (map2M f a b) j = List.zipWith (fun x y => f x y) (colD a j) (colD b j) := by
  intro a
  induction a with
  | nil => intro b c j _ _ _; simp [colD, map2M]
  | cons r rs ih =>
    intro b c j hj ha hb
    cases b with
    | nil => simp [colD, map2M]
    | cons s ss =>
      have hr : r.length = c := ha r (by simp)
      have hs : s.length = c := hb s (by simp)
      simp only [map2M, List.zipWith_cons_cons, colD, List.map_cons]
      congr 1
      · exact getD_zipWith f r s j (hr ▸ hj) (hs ▸ hj)
      · have := ih ss c j hj (fun t ht => ha t (by simp [ht])) (fun t ht => hb t (by simp [ht]))
        simpa [colD, map2M] using this

lemma colD_mapRow (g : ℚ → ℚ) :
    ∀ (a : List (List ℚ)) (c j : Nat), j < c → (∀ r ∈ a, r.length = c) →
      colD (a.map (fun r => r.map g)) j = (colD a j).map g := by
  intro a
  induction a with
  | nil => intro c j _ _; simp [colD]
  | cons r rs ih =>
    intro c j hj ha
    have hr : r.length = c := ha r (by simp)
    simp only [colD, List.map_cons]
    congr 1
    · have hjr : j < r.length := hr ▸ hj
      rw [List.getD_eq_getElem _ _ (by simpa using hjr), List.getD_eq_getElem _ _ hjr]
      simp
    · have := ih c j hj (fun t ht => ha t (by simp [ht]))
      simpa [colD] using this

lemma zipWith_rangeMap (f : ℚ → ℚ → ℚ) :
    ∀ (r : List ℚ) (c : Nat) (g : Nat → ℚ), r.length = c →
      List.zipWith f r ((List.range c).map g) =
        (List.range c).map (fun j => f (r.getD j 0) (g j)) := by
  intro r
  induction r with
  | nil =>
    intro c g h
    simp only [List.length_nil] at h
    subst h
    simp
  | cons x xs ih =>
    intro c g h
    simp only [List.length_cons] at h
    subst h
    rw [List.range_succ_eq_map]
    simp only [List.map_cons, List.zipWith_cons_cons, List.map_map]
    congr 1
    have := ih xs.length (fun j => g (j + 1)) rfl
    rw [show ((List.range xs.length).map fun j => g (j + 1)) =
          (List.range xs.length).map (g ∘ Nat.succ) from rfl] at this
    rw [this]
    rfl

lemma zipWith_rangeMap_same (f : ℚ → ℚ → ℚ) (c : Nat) (g h : Nat → ℚ) :
    List.zipWith f ((List.range c).map g) ((List.range c).map h) =
      (List.range c).map (fun j => f (g j) (h j)) := by
  rw [List.zipWith_map, List.zipWith_same]

lemma sumDim0_foldr (c : Nat) :
    ∀ (m : List (List ℚ)), (∀ r ∈ m, r.length = c) →
      m.foldr (fun row acc => List.zipWith (· + ·) row acc) (List.replicate c 0) =
        (List.range c).map (fun j => (colD m j).sum) := by
  intro m
  induction m with
  | nil =>
    intro _
    rw [show ((List.range c).map fun j => (colD [] j).sum) = (List.range c).map (fun _ => 0) from
      rfl, List.map_const', List.length_range, List.foldr_nil]
  | cons r rs ih =>
    intro h
    have hr : r.length = c := h r (by simp)
    simp only [List.foldr_cons]
    rw [ih (fun t ht => h t (by simp [ht])), zipWith_rangeMap _ r c _ hr]
    simp [colD]

lemma sumDim0_eq (c : Nat) (m : List (List ℚ)) (hne : m ≠ [])
    (h : ∀ r ∈ m, r.length = c) :
    sumDim0 m = (List.range c).map (fun j => (colD m j).sum) := by
  have hw : (m.headD []).length = c := by
    cases m with
    | nil => exact absurd rfl hne
    | cons r rs => exact h r (by simp)
  unfold sumDim0
  rw [hw]
  exact sumDim0_foldr c m h

lemma map2M_rows (f : ℚ → ℚ → ℚ) (c : Nat) :
    ∀ (a b : List (List ℚ)), (∀ r ∈ a, r.length = c) → (∀ r ∈ b, r.length = c) →
      ∀ r ∈ map2M f a b, r.length = c := by
  intro a
  induction a with
  | nil => intro b _ _ r hr; simp [map2M] at hr
  | cons x xs ih =>
    intro b ha hb r hr
    cases b with
    | nil => simp [map2M] at hr
    | cons s ss =>
      simp only [map2M, List.zipWith_cons_cons, List.mem_cons] at hr
      rcases hr with h | h
      · rw [h, List.length_zipWith, ha x (by simp), hb s (by simp)]
        exact Nat.min_self c
      · exact ih ss (fun t ht => ha t (by simp [ht])) (fun t ht => hb t (by simp [ht])) r h

lemma map2M_ne_nil (f : ℚ → ℚ → ℚ) (a b : List (List ℚ)) (ha : a ≠ []) (hb : b ≠ []) :
    map2M f a b ≠ [] := by
  cases a with
  | nil => exact absurd rfl ha
  | cons x xs =>
    cases b with
    | nil => exact absurd rfl hb
    | cons s ss => simp [map2M]

/-- C6: specificity_multilabel computes the per-label ratio TN / (TN + FP)
from logits thresholded at 0, replaces each NaN entry (a label with
TN + FP = 0, possible only when the batch has no negative for that label)
by 0, and returns the mean over labels.  The right-hand side is the
claimed per-label formula built independently from the columns of the
input tensors; being a total rational-valued function with an explicit 0
at the TN + FP = 0 labels, it is never NaN. -/
theorem C6_specificity_nan_zeroed (logits y : List (List ℚ)) (c : Nat)
    (hC : c ≠ 1) (hne : logits ≠ []) (hlen : y.length = logits.length)
    (hl : ∀ r ∈ logits, r.length = c) (hy : ∀ r ∈ y, r.length = c)
    (hbin : ∀ r ∈ y, ∀ v ∈ r, v = 0 ∨ v = 1) :
    specificity_multilabel logits y =
      meanQ ((List.range c).map (fun j =>
        let tn := (List.zipWith (fun p t => (1 - predPos p) * (1 - t))
          (colD logits j) (colD y j)).sum
        let fp := (List.zipWith (fun p t => predPos p * (1 - t))
          (colD logits j) (colD y j)).sum
        if tn + fp = 0 then 0 else tn / (tn + fp))) := by
  have hyne : y ≠ [] := by
    intro h
    rw [h] at hlen
    cases logits with
    | nil => exact hne rfl
    | cons r rs => simp at hlen
  have hP : ∀ r ∈ logits.map (fun r => r.map predPos), r.length = c := by
    intro r hr
    rcases List.mem_map.mp hr with ⟨s, hs, rfl⟩
    rw [List.length_map]
    exact hl s hs
  have hPne : logits.map (fun r => r.map predPos) ≠ [] := by
    intro h
    exact hne (List.map_eq_nil_iff.mp h)
  have h1 := map2M_rows (fun p t => (1 - p) * (1 - t)) c _ y hP hy
  have h2 := map2M_rows (fun p t => p * (1 - t)) c _ y hP hy
  have h1ne := map2M_ne_nil (fun p t => (1 - p) * (1 - t)) _ y hPne hyne
  have h2ne := map2M_ne_nil (fun p t => p * (1 - t)) _ y hPne hyne
  simp only [specificity_multilabel]
  rw [sumDim0_eq c _ h1ne h1, sumDim0_eq c _ h2ne h2, zipWith_rangeMap_same]
  congr 1
  apply List.map_congr_left
  intro j hj
  have hjc : j < c := List.mem_range.mp hj
  rw [colD_map2M _ _ y c j hjc hP hy, colD_map2M _ _ y c j hjc hP hy,
    colD_mapRow predPos logits c j hjc hl, List.zipWith_map_left, List.zipWith_map_left]
  simp only [nanToZero]

/-- C6 witness: the theorem applied to the 4-sample, 2-label case in which
label 0 has no negative in the batch (TN + FP = 0), so its contribution is
zeroed rather than propagated as NaN. -/
theorem C6_specificity_nan_zeroed_witness :
    specificity_multilabel [[1, 1], [1, -1], [-1, 1], [-1, -1]]
        [[1, 0], [1, 1], [1, 0], [1, 1]] =
      meanQ ((List.range 2).map (fun j =>
        let tn := (List.zipWith (fun p t => (1 - predPos p) * (1 - t))
          (colD [[1, 1], [1, -1], [-1, 1], [-1, -1]] j)
          (colD [[1, 0], [1, 1], [1, 0], [1, 1]] j)).sum
        let fp := (List.zipWith (fun p t => predPos p * (1 - t))
          (colD [[1, 1], [1, -1], [-1, 1], [-1, -1]] j)
          (colD [[1, 0], [1, 1], [1, 0], [1, 1]] j)).sum
        if tn + fp = 0 then 0 else tn / (tn + fp))) := by
  apply C6_specificity_nan_zeroed
  · norm_num
  · simp
  · rfl
  · intro r hr
    fin_cases hr <;> rfl
  · intro r hr
    fin_cases hr <;> rfl
  · intro r hr
    fin_cases hr <;> intro v hv <;> fin_cases hv <;> norm_num

/-- Maximum entry of a row, 0 for the empty row (torch.max over the last
dimension of a nonempty row). -/
def maxValueQ (row : List ℚ) : ℚ := (row.maximum).unbot' 0

/-- Embedding of torch.argmax(row, dim=-1) on one row: the index of the
first entry attaining the maximal value. -/
def argmaxRow (row : List ℚ) : Nat := row.findIdx (fun v => decide (v = maxValueQ row))

/-- Index j beats index i in the top-k ordering of a row: its value is
strictly larger, or equal with a smaller index.  This is the ordering by
which the k returned indices of torch.topk are selected, with ties
resolved toward the smaller index. -/
def beats (row : List ℚ) (j i : Nat) : Bool :=
  decide (row.getD i 0 < row.getD j 0) || (decide (row.getD j 0 = row.getD i 0) && decide (j < i))

/-- Number of indices of the row that beat index i. -/
def rank (row : List ℚ) (i : Nat) : Nat :=
  ((List.range row.length).filter (fun j => beats row j i)).length

/-- Embedding of torch.topk(row, k)[1].eq(t).any(): some valid index of
the row is among the k highest-ranked ones and equals the target value. -/
def topkHit (k : Nat) (row : List ℚ) (t : ℚ) : Bool :=
  (List.range row.length).any (fun j => decide (rank row j < k) && decide ((j : ℚ) = t))

/-- A target tensor as passed to accuracy and accuracy_at_k: either hard
integer class labels or a 2-D one-hot/soft float tensor. -/
inductive Target where
  | hard (labels : List Nat)
  | soft (rows : List (List ℚ))

/-- Element count of the target (torch numel). -/
def Target.numel : Target → Nat
  | .hard ls => ls.length
  | .soft rows => (rows.map List.length).sum

/-- Embedding of y.argmax(dim=-1) followed by view(-1): for a 2-D target
the per-row argmax indices, for a 1-D target the single argmax index. -/
def Target.argmaxLast : Target → List ℚ
  | .hard ls => [(Nat.cast (argmaxRow (ls.map (Nat.cast : ℕ → ℚ))) : ℚ)]
  | .soft rows => rows.map (fun r => ((argmaxRow r : ℕ) : ℚ))

/-- Embedding of y.view(-1) without argmax reduction. -/
def Target.flatView : Target → List ℚ
  | .hard ls => ls.map (Nat.cast : ℕ → ℚ)
  | .soft rows => rows.flatten

/-- The target normalization shared by accuracy and accuracy_at_k
(metrics.py lines 64-67 and 73-76): when the target has more elements
than the flattened logits have rows (the mixup case), reduce it by
argmax over its last dimension, otherwise just flatten it. -/
def targetView (n : Nat) (y : Target) : List ℚ :=
  if n < y.numel then y.argmaxLast else y.flatView

/-- Embedding of accuracy (metrics.py lines 62-68) for 2-D logits, on
which view(-1, shape[-1]) is the identity: the mean of the per-row
indicator that the argmax index equals the normalized target entry. -/
def accuracy (logits : List (List ℚ)) (y : Target) : ℚ :=
  meanQ (List.zipWith (fun row t => if ((argmaxRow row : ℕ) : ℚ) = t then 1 else 0)
    logits (targetView logits.length y))

/-- Embedding of accuracy_at_k (metrics.py lines 71-77) for 2-D logits:
the mean of the per-row indicator that the normalized target entry
appears among the top-k indices of the row. -/
def accuracy_at_k (logits : List (List ℚ)) (y : Target) (k : Nat) : ℚ :=
  meanQ (List.zipWith (fun row t => if topkHit k row t then 1 else 0)
    logits (targetView logits.length y))

lemma maxValueQ_mem (row : List ℚ) (h : row ≠ []) : maxValueQ row ∈ row := by
  cases hm : row.maximum with
  | bot => exact absurd (List.maximum_eq_none.mp hm) h
  | coe m =>
    have := List.maximum_mem hm
    simpa [maxValueQ, hm] using this

lemma le_maxValueQ (row : List ℚ) (a : ℚ) (ha : a ∈ row) : a ≤ maxValueQ row := by
  cases hm : row.maximum with
  | bot => exact absurd (List.maximum_eq_none.mp hm) (List.ne_nil_of_mem ha)
  | coe m =>
    have h2 := List.le_maximum_of_mem ha hm
    simpa [maxValueQ, hm] using h2

lemma argmaxRow_lt_length (row : List ℚ) (h : row ≠ []) : argmaxRow row < row.length :=
  List.findIdx_lt_length_of_exists ⟨maxValueQ row, maxValueQ_mem row h, by simp⟩

lemma argmaxRow_getElem (row : List ℚ) (h : argmaxRow row < row.length) :
    row[argmaxRow row] = maxValueQ row := by
  have := List.findIdx_getElem (p := fun v => decide (v = maxValueQ row)) (w := h)
  simpa using this

lemma argmaxRow_first (row : List ℚ) (j : Nat) (hj : j < argmaxRow row)
    (hjl : j < row.length) : row[j] ≠ maxValueQ row := by
  have := List.not_of_lt_findIdx (p := fun v => decide (v = maxValueQ row)) hj
  simpa using this

lemma rankQ_eq_zero_iff (row : List ℚ) (hne : row ≠ []) (t : Nat) (ht : t < row.length) :
    rank row t = 0 ↔ t = argmaxRow row := by
  have ha : argmaxRow row < row.length := argmaxRow_lt_length row hne
  have hva : row[argmaxRow row] = maxValueQ row := argmaxRow_getElem row ha
  unfold rank
  rw [List.length_eq_zero, List.filter_eq_nil_iff]
  constructor
  · intro hno
    have hbta := hno (argmaxRow row) (List.mem_range.mpr ha)
    simp only [beats, Bool.or_eq_true, decide_eq_true_eq, Bool.and_eq_true, not_or, not_and,
      Bool.not_eq_true] at hbta
    obtain ⟨hnlt, hatie⟩ := hbta
    rw [List.getD_eq_getElem _ _ ha, List.getD_eq_getElem _ _ ht, hva] at hnlt hatie
    have hle : row[t] ≤ maxValueQ row := le_maxValueQ row _ (List.getElem_mem ht)
    have heq : row[t] = maxValueQ row := le_antisymm hle (not_lt.mp hnlt)
    have hta : ¬ argmaxRow row < t := by
      intro hc
      exact absurd heq.symm (by simpa using hatie heq.symm hc)
    rcases Nat.lt_trichotomy t (argmaxRow row) with h | h | h
    · exact absurd heq (argmaxRow_first row t h ht)
    · exact h
    · exact absurd h hta
  · intro hEq j hj
    subst hEq
    have hjlen : j < row.length := List.mem_range.mp hj
    simp only [beats, Bool.or_eq_true, decide_eq_true_eq, Bool.and_eq_true, not_or, not_and,
      Bool.not_eq_true]
    rw [List.getD_eq_getElem _ _ ht, List.getD_eq_getElem _ _ hjlen, hva]
    constructor
    · exact not_lt.mpr (le_maxValueQ row _ (List.getElem_mem hjlen))
    · intro hjmax hjt
      exact absurd hjmax (argmaxRow_first row j hjt hjlen)

lemma topkHit_one (row : List ℚ) (hne : row ≠ []) (t : ℚ) :
    topkHit 1 row t = true ↔ t = ((argmaxRow row : ℕ) : ℚ) := by
  unfold topkHit
  rw [List.any_eq_true]
  constructor
  · rintro ⟨j, hj, hp⟩
    have hjlen : j < row.length := List.mem_range.mp hj
    simp only [Bool.and_eq_true, decide_eq_true_eq] at hp
    obtain ⟨hrank, hjt⟩ := hp
    have hj0 : rank row j = 0 := Nat.lt_one_iff.mp hrank
    have := (rankQ_eq_zero_iff row hne j hjlen).mp hj0
    rw [← hjt, this]
  · intro hEq
    refine ⟨argmaxRow row, List.mem_range.mpr (argmaxRow_lt_length row hne), ?_⟩
    simp only [Bool.and_eq_true, decide_eq_true_eq]
    constructor
    · exact Nat.lt_one_iff.mpr ((rankQ_eq_zero_iff row hne _
        (argmaxRow_lt_length row hne)).mpr rfl)
    · exact hEq.symm

lemma zipWith_congr_mem {α β γ : Type} (f g : α → β → γ) :
    ∀ (l1 : List α) (l2 : List β), (∀ a ∈ l1, ∀ b ∈ l2, f a b = g a b) →
      List.zipWith f l1 l2 = List.zipWith g l1 l2 := by
  intro l1
  induction l1 with
  | nil => intro l2 _; simp
  | cons x xs ih =>
    intro l2 h
    cases l2 with
    | nil => simp
    | cons y ys =>
      simp only [List.zipWith_cons_cons]
      congr 1
      · exact h x (by simp) y (by simp)
      · exact ih ys (fun a ha b hb => h a (by simp [ha]) b (by simp [hb]))

/-- C4: accuracy and accuracy_at_k reduce the target by argmax over its
last dimension exactly when the target element count exceeds the leading
dimension of the (already 2-D, hence flattening-invariant) logits; in
that case the result equals the same metric applied to the hard labels
obtained by reducing the target manually.  The last conjunct records the
other side of the branch: without excess elements the target is only
flattened, never argmax-reduced. -/
theorem C4_mixup_branch (logits rows : List (List ℚ)) (k : Nat)
    (hmix : logits.length < Target.numel (Target.soft rows))
    (hlead : rows.length = logits.length) :
    targetView logits.length (Target.soft rows) = Target.argmaxLast (Target.soft rows) ∧
    accuracy logits (Target.soft rows) =
      accuracy logits (Target.hard (rows.map argmaxRow)) ∧
    accuracy_at_k logits (Target.soft rows) k =
      accuracy_at_k logits (Target.hard (rows.map argmaxRow)) k ∧
    (∀ y : Target, ¬ logits.length < y.numel → targetView logits.length y = y.flatView) := by
  have hview : targetView logits.length (Target.soft rows) =
      Target.argmaxLast (Target.soft rows) := by
    unfold targetView
    rw [if_pos hmix]
  have hhard : targetView logits.length (Target.hard (rows.map argmaxRow)) =
      Target.flatView (Target.hard (rows.map argmaxRow)) := by
    unfold targetView
    rw [if_neg]
    simp only [Target.numel, List.length_map, hlead]
    exact lt_irrefl _
  have hsame : Target.argmaxLast (Target.soft rows) =
      Target.flatView (Target.hard (rows.map argmaxRow)) := by
    simp only [Target.argmaxLast, Target.flatView, List.map_map]
    rfl
  refine ⟨hview, ?_, ?_, ?_⟩
  · unfold accuracy
    rw [hview, hhard, hsame]
  · unfold accuracy_at_k
    rw [hview, hhard, hsame]
  · intro y hy
    unfold targetView
    rw [if_neg hy]

/-- C4 witness: 2 x 2 logits against a one-hot 2 x 2 soft target with 4
elements, which exceeds the 2 logit rows and so takes the mixup branch. -/
theorem C4_mixup_branch_witness :
    accuracy [[1, 0], [0, 1]] (Target.soft [[0, 1], [1, 0]]) =
      accuracy [[1, 0], [0, 1]] (Target.hard ([[0, 1], [1, 0]].map argmaxRow)) :=
  (C4_mixup_branch [[1, 0], [0, 1]] [[0, 1], [1, 0]] 1 (by decide) rfl).2.1

/-- C10: on logits whose rows each attain their maximum exactly once, and
integer targets of matching leading size, the dedicated top-1 metric
accuracy agrees with the parametrized family accuracy_at_k at k = 1. -/
theorem C10_accuracy_eq_topk_one (logits : List (List ℚ)) (labels : List Nat)
    (huniq : ∀ row ∈ logits, row.count (maxValueQ row) = 1)
    (hlen : labels.length = logits.length) :
    accuracy logits (Target.hard labels) = accuracy_at_k logits (Target.hard labels) 1 := by
  unfold accuracy accuracy_at_k
  congr 1
  apply zipWith_congr_mem
  intro row hrow t _
  have hne : row ≠ [] := by
    have := huniq row hrow
    intro hc
    rw [hc] at this
    simp at this
  by_cases h : ((argmaxRow row : ℕ) : ℚ) = t
  · rw [if_pos h, if_pos ((topkHit_one row hne t).mpr h.symm)]
  · rw [if_neg h, if_neg]
    intro hc
    exact h ((topkHit_one row hne t).mp hc).symm

/-- C10 witness: concrete 2 x 2 logits with unique row maxima and labels
[0, 1]. -/
theorem C10_accuracy_eq_topk_one_witness :
    accuracy [[1, 0], [0, 1]] (Target.hard [0, 1]) =
      accuracy_at_k [[1, 0], [0, 1]] (Target.hard [0, 1]) 1 := by
  apply C10_accuracy_eq_topk_one
  · intro row hrow
    fin_cases hrow <;> decide
  · rfl

/-- Squared error of one element pair. -/
def sqErr (a b : ℚ) : ℚ := (a - b) ^ 2

/-- Absolute error of one element pair. -/
def absErr (a b : ℚ) : ℚ := |a - b|

/-- F.mse_loss with default mean reduction on same-shape operands,
acting on the flattened element lists. -/
def mseLossQ (a b : List ℚ) : ℚ := meanQ (List.zipWith sqErr a b)

/-- F.l1_loss with default mean reduction on same-shape operands,
acting on the flattened element lists. -/
def maeLossQ (a b : List ℚ) : ℚ := meanQ (List.zipWith absErr a b)

/-- Per-sequence part of the mask built by mask[i, :l, :] = 1 on a
zeros_like tensor: time-step t of the sequence is an all-true row iff
t < l, encoded recursively by decrementing l at each step. -/
def seqMask : Nat → List (List ℚ) → List (List Bool)
  | _, [] => []
  | l, row :: rest => row.map (fun _ => decide (0 < l)) :: seqMask (l - 1) rest

/-- The full boolean mask of the len_batch branch of mse and mae
(metrics.py lines 130-132 and 151-153): sequence i keeps its first
len_batch[i] time-steps; sequences beyond the length vector keep the
all-false rows of the zeros_like initialization. -/
def lenMask : List Nat → List (List (List ℚ)) → List (List (List Bool))
  | _, [] => []
  | lens, seq :: rest => seqMask (lens.headD 0) seq :: lenMask lens.tail rest

/-- torch.masked_select on flattened data: the elements at the positions
where the flattened mask is true, in order. -/
def maskedSelect (xs : List ℚ) (m : List Bool) : List ℚ :=
  ((xs.zip m).filter (fun p => p.2)).map (fun p => p.1)

/-- Embedding of mse (metrics.py lines 119-135) for 3-D outputs with a
target of identical shape, on which the dimension-dropping branch of
lines 122-124 does not fire: the unmasked branch is the flat mean-squared
error, the masked branch selects through the length mask built from the
output tensor. -/
def mse (outs y : List (List (List ℚ))) (len_batch : Option (List Nat)) : ℚ :=
  match len_batch with
  | none => mseLossQ outs.flatten.flatten y.flatten.flatten
  | some lens =>
    mseLossQ (maskedSelect outs.flatten.flatten (lenMask lens outs).flatten.flatten)
      (maskedSelect y.flatten.flatten (lenMask lens outs).flatten.flatten)

/-- Embedding of mae (metrics.py lines 141-156) for 3-D outputs with a
target of identical shape, mirroring mse with the mean-absolute error. -/
def mae (outs y : List (List (List ℚ))) (len_batch : Option (List Nat)) : ℚ :=
  match len_batch with
  | none => maeLossQ outs.flatten.flatten y.flatten.flatten
  | some lens =>
    maeLossQ (maskedSelect outs.flatten.flatten (lenMask lens outs).flatten.flatten)
      (maskedSelect y.flatten.flatten (lenMask lens outs).flatten.flatten)

lemma maskedSelect_append :
    ∀ (a b : List ℚ) (m n : List Bool), a.length = m.length →
      maskedSelect (a ++ b) (m ++ n) = maskedSelect a m ++ maskedSelect b n := by
  intro a
  induction a with
  | nil =>
    intro b m n h
    have : m = [] := by simpa using (List.length_eq_zero.mp h.symm)
    simp [this, maskedSelect]
  | cons x xs ih =>
    intro b m n h
    cases m with
    | nil => simp at h
    | cons c ms =>
      simp only [List.length_cons, Nat.succ.injEq] at h
      have := ih b ms n h
      cases c <;> simp [maskedSelect, List.zip_cons_cons] at this ⊢ <;> exact this

lemma maskedSelect_const :
    ∀ (ys : List ℚ) (n : Nat) (c : Bool), ys.length = n →
      maskedSelect ys (List.replicate n c) = if c then ys else [] := by
  intro ys
  induction ys with
  | nil => intro n c h; cases c <;> simp [maskedSelect]
  | cons x xs ih =>
    intro n c h
    cases n with
    | zero => simp at h
    | succ m =>
      simp only [List.length_cons, Nat.succ.injEq] at h
      have := ih m c h
      cases c <;> simp [maskedSelect, List.replicate_succ, List.zip_cons_cons] at this ⊢ <;>
        exact this

lemma seqMask_flatten_length (l : Nat) (xs : List (List ℚ)) :
    (seqMask l xs).flatten.length = xs.flatten.length := by
  induction xs generalizing l with
  | nil => rfl
  | cons r rs ih => simp [seqMask, ih]

lemma flatten_length_eq_of_forall₂ {xs ys : List (List ℚ)}
    (h : List.Forall₂ (fun a b => a.length = b.length) xs ys) :
    xs.flatten.length = ys.flatten.length := by
  induction h with
  | nil => rfl
  | cons hab _ ih => simp [hab, ih]

lemma maskedSelect_seqMask (xs ys : List (List ℚ)) (l : Nat)
    (h : List.Forall₂ (fun a b => a.length = b.length) xs ys) :
    maskedSelect ys.flatten (seqMask l xs).flatten = (ys.take l).flatten := by
  induction h generalizing l with
  | nil => cases l <;> rfl
  | @cons a b as bs hab hrest ih =>
    simp only [seqMask, List.flatten_cons]
    rw [maskedSelect_append _ _ _ _ (by simp [hab])]
    rw [show (a.map fun _ => decide (0 < l)) = List.replicate a.length (decide (0 < l)) from
      List.map_const' a _]
    rw [maskedSelect_const b a.length _ hab.symm, ih (l - 1)]
    cases l with
    | zero => simp
    | succ k => simp

lemma maskedSelect_lenMask (xsB ysB : List (List (List ℚ))) (lens : List Nat)
    (h : List.Forall₂ (List.Forall₂ (fun a b => a.length = b.length)) xsB ysB) :
    maskedSelect ysB.flatten.flatten (lenMask lens xsB).flatten.flatten =
      (List.zipWith (fun l seq => List.take l seq) lens ysB).flatten.flatten := by
  induction h generalizing lens with
  | nil => cases lens <;> rfl
  | @cons a b as bs hab hrest ih =>
    simp only [lenMask, List.flatten_cons, List.flatten_append]
    rw [maskedSelect_append _ _ _ _
      (by rw [seqMask_flatten_length, flatten_length_eq_of_forall₂ hab])]
    rw [maskedSelect_seqMask a b _ hab, ih lens.tail]
    cases lens with
    | nil => simp
    | cons l ls => simp

lemma forall₂_len_refl (xs : List (List ℚ)) :
    List.Forall₂ (fun a b => a.length = b.length) xs xs :=
  List.forall₂_same.mpr (fun _ _ => rfl)

lemma forall₂_len_refl2 (xs : List (List (List ℚ))) :
    List.Forall₂ (List.Forall₂ (fun a b => a.length = b.length)) xs xs :=
  List.forall₂_same.mpr (fun x _ => forall₂_len_refl x)

/-- C3: with a length vector, mse and mae equal the unmasked mean loss
computed over exactly the elements of the first length[i] time-steps of
each sequence i, all padded positions ignored. -/
theorem C3_length_masked_mse_mae (outs y : List (List (List ℚ))) (lens : List Nat)
    (hshape : List.Forall₂ (List.Forall₂ (fun a b => a.length = b.length)) outs y)
    (hlen : lens.length = outs.length)
    (hbound : List.Forall₂ (fun l seq => l ≤ seq.length) lens outs) :
    mse outs y (some lens) =
      mseLossQ ((List.zipWith (fun l seq => List.take l seq) lens outs).flatten.flatten)
        ((List.zipWith (fun l seq => List.take l seq) lens y).flatten.flatten) ∧
    mae outs y (some lens) =
      maeLossQ ((List.zipWith (fun l seq => List.take l seq) lens outs).flatten.flatten)
        ((List.zipWith (fun l seq => List.take l seq) lens y).flatten.flatten) := by
  have ho := maskedSelect_lenMask outs outs lens (forall₂_len_refl2 outs)
  have hy := maskedSelect_lenMask outs y lens hshape
  constructor
  · show mseLossQ _ _ = _
    rw [ho, hy]
  · show maeLossQ _ _ = _
    rw [ho, hy]

/-- C3 witness: a 2-sequence batch of max length 5 (channel width 1) with
length vector [3, 5]; the theorem instance states that the masked loss is
the plain loss over the first 3 and all 5 time-steps respectively. -/
theorem C3_length_masked_mse_mae_witness :
    mse [[[1], [2], [3], [4], [5]], [[1], [1], [1], [1], [1]]]
        [[[0], [0], [0], [0], [0]], [[0], [0], [0], [0], [0]]] (some [3, 5]) =
      mseLossQ ((List.zipWith (fun l seq => List.take l seq) [3, 5]
          [[[1], [2], [3], [4], [5]], [[1], [1], [1], [1], [1]]]).flatten.flatten)
        ((List.zipWith (fun l seq => List.take l seq) [3, 5]
          [[[0], [0], [0], [0], [0]], [[0], [0], [0], [0], [0]]]).flatten.flatten) :=
  (C3_length_masked_mse_mae
    [[[1], [2], [3], [4], [5]], [[1], [1], [1], [1], [1]]]
    [[[0], [0], [0], [0], [0]], [[0], [0], [0], [0], [0]]] [3, 5]
    (by
      refine List.Forall₂.cons ?_ (List.Forall₂.cons ?_ List.Forall₂.nil) <;>
        refine List.Forall₂.cons rfl (List.Forall₂.cons rfl (List.Forall₂.cons rfl
          (List.Forall₂.cons rfl (List.Forall₂.cons rfl List.Forall₂.nil)))))
    rfl
    (List.Forall₂.cons (by norm_num) (List.Forall₂.cons (by norm_num) List.Forall₂.nil))).1

/-- A shape-carrying tensor: the torch shape together with the flattened
row-major data. -/
structure STensor where
  shape : List Nat
  data : List ℚ

/-- torch squeeze(-1) on a tensor whose last dimension is 1: the trailing
dimension is dropped and the flat data is unchanged. -/
def squeezeLast (t : STensor) : STensor := ⟨t.shape.dropLast, t.data⟩

/-- Embedding of the shape-normalization prologue of mse (metrics.py
lines 119-126, len_batch None): when the target has fewer dimensions than
the output, assert that the trailing output dimension is exactly 1
(raising AssertionError otherwise, modelled as the error case) and
squeeze it away; then compute the flat mean-squared error. -/
def mseChecked (outs y : STensor) : Except Unit ℚ :=
  if y.shape.length < outs.shape.length then
    if outs.shape.getLastD 0 = 1 then
      Except.ok (mseLossQ (squeezeLast outs).data y.data)
    else Except.error ()
  else Except.ok (mseLossQ outs.data y.data)

/-- Embedding of the identical shape-normalization prologue of mae
(metrics.py lines 141-148, len_batch None). -/
def maeChecked (outs y : STensor) : Except Unit ℚ :=
  if y.shape.length < outs.shape.length then
    if outs.shape.getLastD 0 = 1 then
      Except.ok (maeLossQ (squeezeLast outs).data y.data)
    else Except.error ()
  else Except.ok (maeLossQ outs.data y.data)

/-- C9: when the target has one fewer trailing dimension than the output,
mse and mae fail the shape assertion exactly when the trailing output
dimension is not 1; when it is 1 the output is squeezed and the
comparison proceeds; with equally many dimensions no assertion is
evaluated and the flat comparison runs directly. -/
theorem C9_shape_assertion (o y : STensor) :
    (y.shape.length + 1 = o.shape.length →
      (((mseChecked o y).isOk = true ↔ o.shape.getLastD 0 = 1) ∧
       ((maeChecked o y).isOk = true ↔ o.shape.getLastD 0 = 1) ∧
       (o.shape.getLastD 0 = 1 →
         mseChecked o y = Except.ok (mseLossQ (squeezeLast o).data y.data) ∧
         maeChecked o y = Except.ok (maeLossQ (squeezeLast o).data y.data)))) ∧
    (y.shape.length = o.shape.length →
      mseChecked o y = Except.ok (mseLossQ o.data y.data) ∧
      maeChecked o y = Except.ok (maeLossQ o.data y.data)) := by
  constructor
  · intro hdim
    have hlt : y.shape.length < o.shape.length := by omega
    refine ⟨?_, ?_, ?_⟩
    · unfold mseChecked
      rw [if_pos hlt]
      by_cases h1 : o.shape.getLastD 0 = 1
      · rw [if_pos h1]
        simpa [Except.isOk, Except.toBool] using h1
      · rw [if_neg h1]
        simpa [Except.isOk, Except.toBool] using h1
    · unfold maeChecked
      rw [if_pos hlt]
      by_cases h1 : o.shape.getLastD 0 = 1
      · rw [if_pos h1]
        simpa [Except.isOk, Except.toBool] using h1
      · rw [if_neg h1]
        simpa [Except.isOk, Except.toBool] using h1
    · intro h1
      unfold mseChecked maeChecked
      rw [if_pos hlt, if_pos hlt, if_pos h1, if_pos h1]
      exact ⟨rfl, rfl⟩
  · intro hdim
    have hnlt : ¬ y.shape.length < o.shape.length := by omega
    unfold mseChecked maeChecked
    rw [if_neg hnlt, if_neg hnlt]
    exact ⟨rfl, rfl⟩

/-- C9 witness: a (2, 1) output against a (2,) target passes the
assertion, since the trailing output dimension is 1. -/
theorem C9_shape_assertion_witness :
    (mseChecked ⟨[2, 1], [1, 2]⟩ ⟨[2], [3, 4]⟩).isOk = true ↔
      (([2, 1] : List Nat).getLastD 0 = 1) :=
  ((C9_shape_assertion ⟨[2, 1], [1, 2]⟩ ⟨[2], [3, 4]⟩).1 rfl).1

/-- Mean of a list of reals: sum divided by length, as in torch mean
reduction. -/
noncomputable def meanR (l : List ℝ) : ℝ := l.sum / (l.length : ℝ)

/-- Embedding of F.softplus with the default beta = 1 and threshold = 20:
log(1 + exp x), reverting to the identity above the threshold. -/
noncomputable def softplusR (x : ℝ) : ℝ := if 20 < x then x else Real.log (1 + Real.exp x)

/-- Embedding of _student_t_map (metrics.py lines 7-10) on scalar
channels (the squeeze(-1) calls are the identity in the scalar model):
sigma is constrained through softplus and nu through 2 + softplus. -/
noncomputable def _student_t_map (mu sigma nu : ℝ) : ℝ × ℝ × ℝ :=
  (mu, softplusR sigma, 2 + softplusR nu)

/-- torch.lgamma: the logarithm of the absolute value of the Gamma
function. -/
noncomputable def lgammaR (x : ℝ) : ℝ := Real.log |Real.Gamma x|

/-- Per-element Student-t log-likelihood of student_t_loss (metrics.py
lines 12-26): the channels are mapped through _student_t_map, then the
closed-form log-density is evaluated with lgamma for the normalizer. -/
noncomputable def studentTll (p : ℝ × ℝ × ℝ) (yv : ℝ) : ℝ :=
  let m := _student_t_map p.1 p.2.1 p.2.2
  let mu := m.1
  let sigma := m.2.1
  let nu := m.2.2
  let nup1_half := (nu + 1) / 2
  let part1 := 1 / nu * ((yv - mu) / sigma) ^ 2
  let z := lgammaR nup1_half - lgammaR (nu / 2) - 0.5 * Real.log (Real.pi * nu)
    - Real.log sigma
  z - nup1_half * Real.log (1 + part1)

/-- Embedding of student_t_loss (metrics.py lines 12-27): the negated
mean of the per-element log-likelihood, with the three channels of the
output tensor carried as triples. -/
noncomputable def student_t_loss (outs : List (ℝ × ℝ × ℝ)) (y : List ℝ) : ℝ :=
  -(meanR (List.zipWith studentTll outs y))

/-- Per-element Gaussian log-likelihood of gaussian_ll_loss (metrics.py
lines 29-38): sigma is constrained through softplus. -/
noncomputable def gaussianLl (p : ℝ × ℝ) (yv : ℝ) : ℝ :=
  let mu := p.1
  let sigma := softplusR p.2
  let ll := Real.log sigma + 0.5 * Real.log (2 * Real.pi) + 0.5 * ((yv - mu) / sigma) ^ 2
  Neg.neg ll

/-- Embedding of gaussian_ll_loss (metrics.py lines 29-38): the negated
mean of the per-element log-likelihood, with the two channels of the
output tensor carried as pairs. -/
noncomputable def gaussian_ll_loss (outs : List (ℝ × ℝ)) (y : List ℝ) : ℝ :=
  -(meanR (List.zipWith gaussianLl outs y))

lemma softplusR_pos (x : ℝ) : 0 < softplusR x := by
  unfold softplusR
  split
  · linarith
  · exact Real.log_pos (by linarith [Real.exp_pos x])

/-- C2: softplus is strictly positive on every real input, so the sigma
produced by the normalizer of student_t_loss and gaussian_ll_loss is
strictly positive and the degrees-of-freedom 2 + softplus is strictly
greater than 2. -/
theorem C2_softplus_normalizers (x mu s n : ℝ) :
    0 < softplusR x ∧ 2 < 2 + softplusR x ∧
    0 < (_student_t_map mu s n).2.1 ∧ 2 < (_student_t_map mu s n).2.2 := by
  refine ⟨softplusR_pos x, by linarith [softplusR_pos x], ?_, ?_⟩
  · exact softplusR_pos s
  · have := softplusR_pos n
    simp only [_student_t_map]
    linarith

lemma zipWith_transform {α β : Type} (f : α → ℝ → β) (g : ℝ → α → α) :
    ∀ (xs : List α) (y : List ℝ),
      List.zipWith f (List.zipWith g y xs) y =
        List.zipWith (fun x yv => f (g yv x) yv) xs y := by
  intro xs
  induction xs with
  | nil => intro y; cases y <;> simp
  | cons x xs ih =>
    intro y
    cases y with
    | nil => simp
    | cons yv ys => simp [ih]

lemma studentTll_reflect (p : ℝ × ℝ × ℝ) (a : ℝ) :
    studentTll (2 * a - p.1, p.2.1, p.2.2) a = studentTll p a := by
  rcases p with ⟨m, s, n⟩
  simp only [studentTll, _student_t_map]
  rw [show a - (2 * a - m) = -(a - m) by ring, neg_div, neg_sq]

lemma gaussianLl_reflect (p : ℝ × ℝ) (a : ℝ) :
    gaussianLl (2 * a - p.1, p.2) a = gaussianLl p a := by
  rcases p with ⟨m, s⟩
  simp only [gaussianLl]
  rw [show a - (2 * a - m) = -(a - m) by ring, neg_div, neg_sq]

/-- C8: student_t_loss and gaussian_ll_loss are invariant under negating
the residual: replacing each mean channel mu by 2 * y - mu, with the raw
scale and degrees-of-freedom channels fixed, leaves the loss unchanged. -/
theorem C8_residual_symmetry (outs3 : List (ℝ × ℝ × ℝ)) (outs2 : List (ℝ × ℝ)) (y : List ℝ) :
    student_t_loss (List.zipWith (fun yv p => (2 * yv - p.1, p.2.1, p.2.2)) y outs3) y =
      student_t_loss outs3 y ∧
    gaussian_ll_loss (List.zipWith (fun yv p => (2 * yv - p.1, p.2)) y outs2) y =
      gaussian_ll_loss outs2 y := by
  constructor
  · unfold student_t_loss
    rw [zipWith_transform studentTll (fun yv p => (2 * yv - p.1, p.2.1, p.2.2)) outs3 y]
    congr 1
    congr 1
    exact zipWith_congr_mem _ _ outs3 y (fun p _ a _ => studentTll_reflect p a)
  · unfold gaussian_ll_loss
    rw [zipWith_transform gaussianLl (fun yv p => (2 * yv - p.1, p.2)) outs2 y]
    congr 1
    congr 1
    exact zipWith_congr_mem _ _ outs2 y (fun p _ a _ => gaussianLl_reflect p a)

/-- Embedding of forecast_rmse (metrics.py lines 137-139) for 2-D
(series, time) operands: elementwise squared error with reduction none,
mean over dim 1 (time), elementwise square root, then the overall mean
over the remaining series axis. -/
noncomputable def forecast_rmse (outs y : List (List ℝ)) : ℝ :=
  meanR (((List.zipWith (List.zipWith (fun a b => (a - b) ^ 2)) outs y).map meanR).map
    Real.sqrt)

/-- Global root-mean-square error over all elements at once, the
quantity the spec insists forecast_rmse does not compute. -/
noncomputable def globalRmse (outs y : List (List ℝ)) : ℝ :=
  Real.sqrt (meanR ((List.zipWith (List.zipWith (fun a b => (a - b) ^ 2)) outs y).flatten))

/-- C5: forecast_rmse is the mean over series of the square root of the
per-series mean squared error, and on the concrete batch with series
errors (0, 0) and (2, 2) this differs from the global RMSE: the nested
form gives 1 while the global form gives the square root of 2. -/
theorem C5_forecast_rmse_per_series :
    (∀ outs y : List (List ℝ), forecast_rmse outs y =
      meanR (List.zipWith (fun orow yrow =>
        Real.sqrt (meanR (List.zipWith (fun a b => (a - b) ^ 2) orow yrow))) outs y)) ∧
    forecast_rmse [[0, 0], [2, 2]] [[0, 0], [0, 0]] ≠
      globalRmse [[0, 0], [2, 2]] [[0, 0], [0, 0]] := by
  constructor
  · intro outs y
    unfold forecast_rmse
    rw [List.map_zipWith, List.map_zipWith]
  · have hsq : List.zipWith (List.zipWith (fun a b => (a - b) ^ 2))
        ([[0, 0], [2, 2]] : List (List ℝ)) [[0, 0], [0, 0]] = [[0, 0], [4, 4]] := by
      norm_num
    have h4 : Real.sqrt 4 = 2 := by
      rw [show (4 : ℝ) = 2 ^ 2 by norm_num, Real.sqrt_sq (by norm_num : (0 : ℝ) ≤ 2)]
    have hL : forecast_rmse [[0, 0], [2, 2]] [[0, 0], [0, 0]] = 1 := by
      unfold forecast_rmse
      rw [hsq]
      have hm0 : meanR [0, 0] = 0 := by norm_num [meanR]
      have hm4 : meanR [4, 4] = 4 := by norm_num [meanR]
      simp only [List.map_cons, List.map_nil, hm0, hm4, Real.sqrt_zero, h4]
      norm_num [meanR]
    have hR : globalRmse [[0, 0], [2, 2]] [[0, 0], [0, 0]] = Real.sqrt 2 := by
      unfold globalRmse
      rw [hsq]
      have : meanR ([[0, 0], [4, 4]] : List (List ℝ)).flatten = 2 := by
        norm_num [meanR]
      rw [this]
    rw [hL, hR]
    intro hc
    have h2 : (2 : ℝ) = 1 := by
      have := Real.sq_sqrt (by norm_num : (0 : ℝ) ≤ 2)
      rw [← hc] at this
      simpa using this.symm
    norm_num at h2

/-- Tags denoting the callables registered in the metric dictionaries of
metrics.py (each constructor stands for the registered function object or
partial application; all registered values in the source are callables). -/
inductive MetricTag where
  | binary_cross_entropy
  | cross_entropy
  | binary_accuracy
  | accuracy
  | accuracy_at_k (k : Nat)
  | eval_loss
  | mse
  | mae
  | forecast_rmse
  | f1_binary
  | f1_macro
  | f1_micro
  | roc_auc_macro
  | roc_auc_micro
  | soft_cross_entropy
  | student_t
  | gaussian_ll
  | recall_binary
  | precision_binary
  | specificity_binary
  | recall_multilabel
  | precision_multilabel
  | specificity_multilabel
  | iou (threshold : ℚ)
  | iou_with_logits (threshold : ℚ)
  | focal_loss
  | loss
  | bpb
  | ppl
  deriving DecidableEq

/-- The three keys contributed by the optional segmentation-metrics
dependency (metrics.py lines 268-270). -/
def segmentationKeys : List String := ["iou", "iou_with_logits", "focal_loss"]

/-- Embedding of output_metric_fns (metrics.py lines 233-259 and the
conditional extension of lines 261-272): the base entries in source
order, extended with the three segmentation entries exactly when the
optional segmentation-metrics import succeeds; an ImportError leaves the
base dictionary untouched. -/
def output_metric_fns (segAvailable : Bool) : List (String × MetricTag) :=
  [("binary_cross_entropy", MetricTag.binary_cross_entropy),
   ("cross_entropy", MetricTag.cross_entropy),
   ("binary_accuracy", MetricTag.binary_accuracy),
   ("accuracy", MetricTag.accuracy),
   ("accuracy@3", MetricTag.accuracy_at_k 3),
   ("accuracy@5", MetricTag.accuracy_at_k 5),
   ("accuracy@10", MetricTag.accuracy_at_k 10),
   ("eval_loss", MetricTag.eval_loss),
   ("mse", MetricTag.mse),
   ("mae", MetricTag.mae),
   ("forecast_rmse", MetricTag.forecast_rmse),
   ("f1_binary", MetricTag.f1_binary),
   ("f1_macro", MetricTag.f1_macro),
   ("f1_micro", MetricTag.f1_micro),
   ("roc_auc_macro", MetricTag.roc_auc_macro),
   ("roc_auc_micro", MetricTag.roc_auc_micro),
   ("soft_cross_entropy", MetricTag.soft_cross_entropy),
   ("student_t", MetricTag.student_t),
   ("gaussian_ll", MetricTag.gaussian_ll),
   ("recall_binary", MetricTag.recall_binary),
   ("precision_binary", MetricTag.precision_binary),
   ("specificity_binary", MetricTag.specificity_binary),
   ("recall_multilabel", MetricTag.recall_multilabel),
   ("precision_multilabel", MetricTag.precision_multilabel),
   ("specificity_multilabel", MetricTag.specificity_multilabel)] ++
  (if segAvailable then
    [("iou", MetricTag.iou (1 / 2)),
     ("iou_with_logits", MetricTag.iou_with_logits (1 / 2)),
     ("focal_loss", MetricTag.focal_loss)]
  else [])

/-- Embedding of loss_metric_fns (metrics.py lines 274-278). -/
def loss_metric_fns : List (String × MetricTag) :=
  [("loss", MetricTag.loss), ("bpb", MetricTag.bpb), ("ppl", MetricTag.ppl)]

/-- Embedding of the merged registry metric_fns (metrics.py line 279):
the two dictionaries have disjoint key sets, so the dict merge is the
concatenation of the entry lists. -/
def metric_fns (segAvailable : Bool) : List (String × MetricTag) :=
  output_metric_fns segAvailable ++ loss_metric_fns

/-- C7: with the segmentation dependency unavailable the registry is
still fully defined (the import failure is absorbed): every key of the
merged registry looks up to a registered callable, the keys of the
degraded registry are exactly the keys of the full registry with the
three segmentation entries removed, and those three keys are absent. -/
theorem C7_registry_graceful_degradation :
    (((metric_fns false).map Prod.fst).all
      (fun k => ((metric_fns false).lookup k).isSome) = true) ∧
    (((metric_fns true).map Prod.fst).filter
      (fun k => decide (k ∉ (metric_fns false).map Prod.fst)) = segmentationKeys) ∧
    (((metric_fns false).map Prod.fst).all
      (fun k => decide (k ∈ (metric_fns true).map Prod.fst)) = true) ∧
    (segmentationKeys.all
      (fun k => decide (k ∉ (metric_fns false).map Prod.fst)) = true) := by
  refine ⟨?_, ?_, ?_, ?_⟩ <;> decide
